import Mathlib

/-
Verification development for the rag-system repository (YouTube transcript
RAG pipeline).  Character buffers are modelled as `List Char`, Python `int`
as `Int` or `Nat` where the source guarantees non-negativity, `float`
timestamps as `ℚ`, and fallible calls as `Except`/`Option`.  Loops of the
source are modelled by fuel-based structural recursion so that every
definition evaluates inside the kernel; each top-level wrapper passes fuel
that provably suffices.
-/

namespace RagSpec

/-! ## Python string primitives -/

/-- Whitespace test used by Python `str.split()` (ASCII whitespace:
space, tab, newline, carriage return, vertical tab, form feed). -/
def pyIsSpace (c : Char) : Bool :=
  c = ' ' || c = '\t' || c = '\n' || c = '\r' || c = Char.ofNat 11 || c = Char.ofNat 12

/-- Whitespace tokenization of a buffer together with the true starting
character offset of every token; `tokenizeOffFuel fuel s k` tokenizes the
suffix `s` of the buffer whose first character sits at absolute offset `k`.
Mapping `Prod.snd` over the result gives exactly Python `s.split()`. -/
def tokenizeOffFuel : Nat → List Char → Nat → List (Nat × List Char)
  | 0, _, _ => []
  | _ + 1, [], _ => []
  | fuel + 1, c :: rest, k =>
    if pyIsSpace c then tokenizeOffFuel fuel rest (k + 1)
    else
      (k, (c :: rest).takeWhile (fun x => !pyIsSpace x)) ::
        tokenizeOffFuel fuel ((c :: rest).dropWhile (fun x => !pyIsSpace x))
          (k + ((c :: rest).takeWhile (fun x => !pyIsSpace x)).length)

/-- Tokens of a whole buffer with their starting offsets. -/
def tokenizeOff (s : List Char) : List (Nat × List Char) :=
  tokenizeOffFuel s.length s 0

/-- Python `s.split()`: the whitespace-delimited tokens of `s`. -/
def pySplit (s : List Char) : List (List Char) :=
  (tokenizeOff s).map Prod.snd

/-- Python `s.find(needle, pos)` search loop: first index `i ≥ pos` at which
`needle` occurs in `hay`, scanning at most `fuel` candidate positions. -/
def pyFindFuel (needle hay : List Char) : Nat → Nat → Option Nat
  | _, 0 => none
  | pos, fuel + 1 =>
    if needle.isPrefixOf (hay.drop pos) then some pos
    else pyFindFuel needle hay (pos + 1) fuel

/-- Python `hay.find(needle, pos)`; `none` models the `-1` failure result. -/
def pyFind (needle hay : List Char) (pos : Nat) : Option Nat :=
  pyFindFuel needle hay pos (hay.length + 1 - pos)

/-- Python `s.rfind(ch, start, stop)` for a single-character needle: the
largest index `p` with `start ≤ p < stop` and `s[p] = ch`; `none` models the
`-1` failure result.  Recursion steps the exclusive bound `stop` downward. -/
def pyRfindChar (ch : Char) (s : List Char) (start : Nat) : Nat → Option Nat
  | 0 => none
  | e + 1 =>
    if e < start then none
    else if s.getD e ' ' = ch then some e
    else pyRfindChar ch s start e

/-- Python `s.replace(pat, "")` scan (left-to-right, non-overlapping
occurrences of `pat` deleted), with explicit fuel.  An empty `pat` is never
deleted (matching Python, where replacing the empty pattern by the empty
string leaves the text unchanged). -/
def pyReplaceDelFuel (pat : List Char) : List Char → Nat → List Char
  | s, 0 => s
  | [], _ + 1 => []
  | c :: rest, fuel + 1 =>
    if pat ≠ [] ∧ pat.isPrefixOf (c :: rest) then
      pyReplaceDelFuel pat ((c :: rest).drop pat.length) fuel
    else c :: pyReplaceDelFuel pat rest fuel

/-- Python `s.replace(pat, "")`. -/
def pyReplaceDel (pat s : List Char) : List Char :=
  pyReplaceDelFuel pat s s.length

/-- Boolean substring-occurrence test: does `pat` occur anywhere in `s`? -/
def occursIn (pat : List Char) : List Char → Bool
  | [] => pat.isPrefixOf []
  | c :: rest => pat.isPrefixOf (c :: rest) || occursIn pat rest

/-! ## Embedding of `src/src/ingest/chunking.py` (`make_chunks`) -/

/-- Input document dictionary of `make_chunks`
(`doc_id`, `title`, `source_path`, `raw_text`). -/
structure PyDoc where
  docId : List Char
  title : List Char
  sourcePath : List Char
  rawText : List Char
deriving DecidableEq, Repr

/-- Chunk dictionary built by `make_chunks`; the `metadata` sub-dictionary
(`doc_id`, `title`, `source_path`) is flattened into the last three fields. -/
structure PyChunk where
  chunkId : List Char
  text : List Char
  span : Nat × Nat
  tokenEstimate : Nat
  docId : List Char
  title : List Char
  sourcePath : List Char
deriving DecidableEq, Repr

/-- Formatting helper `_seq` of `make_chunks`: `f"{n:04d}"`. -/
def seq4 (n : Nat) : List Char :=
  List.replicate (4 - (Nat.repr n).toList.length) '0' ++ (Nat.repr n).toList

/-- Word-start loop of `make_chunks`: for each word in order, locate it with
`raw_text.find(w, pos)`; on failure retry `raw_text.find(w)` from the start,
and if that also fails approximate by the current pointer `pos`; then advance
the pointer to the end of the located occurrence. -/
def wordStartsLoop (raw : List Char) : List (List Char) → Nat → List Nat
  | [], _ => []
  | w :: ws, pos =>
    let found :=
      match pyFind w raw pos with
      | some i => i
      | none =>
        match pyFind w raw 0 with
        | some i => i
        | none => pos
    found :: wordStartsLoop raw ws (found + w.length)

/-- Python `" ".join(words)`. -/
def joinSpace (ws : List (List Char)) : List Char :=
  List.intercalate [' '] ws

/-- Chunk-dictionary construction of one `make_chunks` loop iteration for the
word window `[i, j)` with 1-based sequence number `cnt`. -/
def buildChunk (doc : PyDoc) (words : List (List Char)) (wordStarts : List Nat)
    (cnt i j : Nat) : PyChunk :=
  let chunkWords := (words.drop i).take (j - i)
  let span : Nat × Nat :=
    if chunkWords.length > 0 then
      (wordStarts.getD i 0, wordStarts.getD (j - 1) 0 + (words.getD (j - 1) []).length)
    else (0, 0)
  { chunkId := doc.docId ++ ':' :: seq4 cnt
    text := joinSpace chunkWords
    span := span
    tokenEstimate := chunkWords.length
    docId := doc.docId
    title := doc.title
    sourcePath := doc.sourcePath }

/-- Main window loop of `make_chunks`: starting at word index `i` with the
chunk counter at `cnt`, emit a chunk for `[i, min (i + window) len)`, advance
`i` by `step`, and break after a chunk whose window reached the end. -/
def chunkLoopFuel (doc : PyDoc) (words : List (List Char)) (wordStarts : List Nat)
    (window step : Nat) : Nat → Nat → Nat → List PyChunk
  | _, _, 0 => []
  | cnt, i, fuel + 1 =>
    if i < words.length then
      let j := min (i + window) words.length
      let c := buildChunk doc words wordStarts (cnt + 1) i j
      if j = words.length then [c]
      else c :: chunkLoopFuel doc words wordStarts window step (cnt + 1) (i + step) fuel
    else []

/-- Embedding of `make_chunks(doc, chunk_size_tokens, chunk_overlap_tokens)`.
Parameter validation raises `ValueError` (modelled as `Except.error` with the
exact message); then the buffer is split into words, each word receives its
start offset via the `find`-based loop, and a fixed-size window slides over
the word list.  The dead safety net emitting a single whole-text chunk when
the loop produced none is reproduced faithfully. -/
def makeChunks (doc : PyDoc) (chunkSizeTokens chunkOverlapTokens : Int) :
    Except (List Char) (List PyChunk) :=
  if chunkSizeTokens ≤ 0 then
    .error "chunk_size_tokens must be a positive integer.".toList
  else if chunkOverlapTokens < 0 then
    .error "chunk_overlap_tokens cannot be negative.".toList
  else if chunkSizeTokens ≤ chunkOverlapTokens then
    .error "chunk_overlap_tokens must be smaller than chunk_size_tokens(otherwise the window cannot advance).".toList
  else
    let raw := doc.rawText
    let words := pySplit raw
    if words.length = 0 then .ok []
    else
      let wordStarts := wordStartsLoop raw words 0
      let window := chunkSizeTokens.toNat
      let step := (chunkSizeTokens - chunkOverlapTokens).toNat
      let chunks := chunkLoopFuel doc words wordStarts window step 0 0 words.length
      if chunks.isEmpty then
        .ok [{ chunkId := doc.docId ++ ':' :: seq4 1
               text := raw
               span := (0, raw.length)
               tokenEstimate := words.length
               docId := doc.docId
               title := doc.title
               sourcePath := doc.sourcePath }]
      else .ok chunks

/-- Analysis device: the sequence of word-index windows `(i, j)` that the
`make_chunks` loop visits (not part of the source; used to state and prove
properties of `chunkLoopFuel`). -/
def windowsFuel (n window step : Nat) : Nat → Nat → List (Nat × Nat)
  | _, 0 => []
  | i, fuel + 1 =>
    if i < n then
      let j := min (i + window) n
      if j = n then [(i, j)] else (i, j) :: windowsFuel n window step (i + step) fuel
    else []

/-- Chunk list obtained by instantiating `buildChunk` along a window list,
with the counter threaded through. -/
def mapChunks (doc : PyDoc) (words : List (List Char)) (wordStarts : List Nat)
    (cnt : Nat) : List (Nat × Nat) → List PyChunk
  | [] => []
  | w :: rest =>
    buildChunk doc words wordStarts (cnt + 1) w.1 w.2 ::
      mapChunks doc words wordStarts (cnt + 1) rest

/-- Character span that `buildChunk` assigns to window `(i, j)` when the
window is non-degenerate. -/
def spanOfWin (words : List (List Char)) (wordStarts : List Nat)
    (w : Nat × Nat) : Nat × Nat :=
  if ((words.drop w.1).take (w.2 - w.1)).length > 0 then
    (wordStarts.getD w.1 0, wordStarts.getD (w.2 - 1) 0 + (words.getD (w.2 - 1) []).length)
  else (0, 0)

/-! ## Timestamp resolution for transcript chunks (spec-modelled) -/

/-- PositionMap entry: a half-open character range of the normalized buffer
bound to the timestamp of the transcript segment that produced it. -/
structure PMEntry where
  charStart : Nat
  charEnd : Nat
  timestamp : ℚ
  text : List Char
deriving DecidableEq, Repr

/-- Containment of a character offset in the half-open range of an entry. -/
def entryContains (e : PMEntry) (c : Nat) : Bool :=
  decide (e.charStart ≤ c) && decide (c < e.charEnd)

/-- Modelled from the spec: the timestamp-resolution step of
`chunk_transcript` (imported by `main.py` from `src.ingestion` but absent
from the source tree; only `make_chunks` and `embed_and_store` around it are
present).  Per spec section 4.2, a chunk timestamp is the timestamp of the
PositionMap entry whose range contains `char_span.start`, with the last
PositionMap timestamp as the defined fallback when no entry matches. -/
def resolveTimestamp (pm : List PMEntry) (c : Nat) : ℚ :=
  match pm.find? (fun e => entryContains e c) with
  | some e => e.timestamp
  | none =>
    match pm.getLast? with
    | some e => e.timestamp
    | none => 0

/-- Modelled from the spec: `chunk_transcript` produces the chunks of the
normalized buffer and pairs each with its resolved timestamp (which
`embed_and_store` then stores as the chunk metadata `timestamp`). -/
def chunkTranscript (pm : List PMEntry) (doc : PyDoc)
    (chunkSizeTokens chunkOverlapTokens : Int) :
    Except (List Char) (List (PyChunk × ℚ)) :=
  (makeChunks doc chunkSizeTokens chunkOverlapTokens).map
    (List.map (fun c => (c, resolveTimestamp pm c.span.1)))

/-! ## Embedding of `src/src/generation.py` (`YouTubeRAGGenerator.generate_answer`) -/

/-- Result of one external completion call (`response.choices[0].message.content`
and `response.usage.total_tokens`). -/
structure Completion where
  content : String
  totalTokens : Option Nat
deriving DecidableEq, Repr

/-- Container for a generated response with metadata (`GenerationResponse`).
`α` is the retrieval-result type (`RetrievalResult` lives in an external
draft module; the generator only stores and forwards these values). -/
structure GenerationResponse (α : Type) where
  answer : String
  sources : List α
  query : String
  modelUsed : String
  tokensUsed : Option Nat := none

/-- Canned answer returned when retrieval produced no chunks. -/
def noInfoMsg : String :=
  "I couldn\x27t find any relevant information in the video transcripts to answer your question."

/-- Prefix of the degraded answer built in the exception handler around the
completion call. -/
def errPrefix : String := "Sorry, I encountered an error generating the response: "

/-- Embedding of `YouTubeRAGGenerator.generate_answer`.  The retriever output
`retrievalResults`, the context formatter, the prompt template and the
completion client are external collaborators and enter as parameters; the
completion client may fail (`Except.error` models a raised exception).  The
second component of the result counts completion-service invocations. -/
def generateAnswer {α : Type} (retrievalResults : List α)
    (formatContext : List α → String)
    (createPromptTemplate : String → String → String)
    (complete : String → Except String Completion)
    (query modelName : String) : GenerationResponse α × Nat :=
  if retrievalResults.isEmpty then
    ({ answer := noInfoMsg, sources := [], query := query, modelUsed := modelName }, 0)
  else
    let context := formatContext retrievalResults
    let prompt := createPromptTemplate query context
    match complete prompt with
    | .ok comp =>
      ({ answer := comp.content, sources := retrievalResults, query := query,
         modelUsed := modelName, tokensUsed := comp.totalTokens }, 1)
    | .error e =>
      ({ answer := errPrefix ++ e, sources := retrievalResults, query := query,
         modelUsed := modelName }, 1)

/-! ## Embedding of `src/src/retrieval.py` (`get_context_window`, `list_available_videos`)
and `src/src/embeddings.py` (`get_collection` naming) -/

/-- Stored chunk as read back from the collection: document text plus the
`timestamp` and `video_id` metadata written by `embed_and_store`. -/
structure StoredChunk where
  text : String
  timestamp : ℚ
  videoId : String
deriving DecidableEq, Repr

/-- Embedding of `get_context_window(video_id, timestamp, window_seconds)`:
clamp the window start at zero, keep every stored chunk whose timestamp lies
in `[start_time, end_time]`, and sort the survivors by timestamp ascending
(Python `list.sort` is a stable sort, modelled by `mergeSort`).  The stored
chunk list stands for `collection.get(...)` of the external index. -/
def getContextWindow (chunks : List StoredChunk) (timestamp windowSeconds : ℚ) :
    List StoredChunk :=
  let startTime := max 0 (timestamp - windowSeconds)
  let endTime := timestamp + windowSeconds
  let contextChunks := chunks.filter
    (fun c => decide (startTime ≤ c.timestamp) && decide (c.timestamp ≤ endTime))
  contextChunks.mergeSort (fun a b => decide (a.timestamp ≤ b.timestamp))

/-- Collection naming of `get_collection` in `embeddings.py`:
`f"video_{video_id}"`. -/
def collectionName (videoId : List Char) : List Char :=
  "video_".toList ++ videoId

/-- Embedding of `list_available_videos`: keep the collection names starting
with `"video_"` and map each through `name.replace("video_", "")`. -/
def listAvailableVideos (collectionNames : List (List Char)) : List (List Char) :=
  (collectionNames.filter (fun n => "video_".toList.isPrefixOf n)).map
    (fun n => pyReplaceDel "video_".toList n)

/-! ## Embedding of `src/src/document_processor.py` (`PDFDocumentProcessor.chunk_document`) -/

/-- Fixed `self.chunk_overlap` set in `PDFDocumentProcessor.__init__`. -/
def pdfChunkOverlap : Nat := 200

/-- End of the current window in one `chunk_document` iteration:
`end = min(start + chunk_size, len(text))`, then, when the window does not
reach the end of the text, pulled back to just past the last sentence
terminator found in the window provided that terminator lies strictly beyond
half the nominal chunk size from the window start. -/
def adjustedEnd (text : List Char) (chunkSize start : Nat) : Nat :=
  let e := min (start + chunkSize) text.length
  if e < text.length then
    match pyRfindChar '.' text start e with
    | some p => if start + chunkSize / 2 < p then p + 1 else e
    | none => e
  else e

/-- Start index for the next `chunk_document` iteration:
`start = end - self.chunk_overlap if end < len(text) else end`.  The result
is an `Int` because the Python subtraction can go negative. -/
def nextStart (text : List Char) (chunkSize start : Nat) : Int :=
  let e := adjustedEnd text chunkSize start
  if e < text.length then (e : Int) - (pdfChunkOverlap : Int) else (e : Int)

/-! ## Analysis definitions -/

/-- Gap relation between consecutive tokens: the next token starts at or
after the end of the previous one. -/
def tokGap (a b : Nat × List Char) : Prop :=
  a.1 + a.2.length ≤ b.1

instance : IsTrans (Nat × List Char) tokGap :=
  ⟨fun a b c hab hbc => by unfold tokGap at *; omega⟩

/-- Well-formedness of a window visited by the `make_chunks` loop over a
word list of length `n`. -/
def winGood (n window : Nat) (w : Nat × Nat) : Prop :=
  w.1 < n ∧ w.2 = min (w.1 + window) n ∧ w.1 < w.2

/-- Relation between consecutive windows visited by the `make_chunks` loop:
both are well formed and the second starts `step` tokens after the first. -/
def winRel (n window step : Nat) (a b : Nat × Nat) : Prop :=
  winGood n window a ∧ winGood n window b ∧ b.1 = a.1 + step

/-- Token of the buffer lying entirely inside a character span. -/
def inSpanTok (s : Nat × Nat) (t : Nat × List Char) : Bool :=
  decide (s.1 ≤ t.1) && decide (t.1 + t.2.length ≤ s.2)

/-- Number of whitespace-delimited tokens of `raw` contained in both
character spans: the token overlap of two chunks. -/
def sharedTokens (raw : List Char) (s1 s2 : Nat × Nat) : Nat :=
  ((tokenizeOff raw).filter (fun t => inSpanTok s1 t && inSpanTok s2 t)).length

/-- Chunk list produced by a successful `make_chunks` call. -/
def chunksOf (doc : PyDoc) (cs ov : Int) : List PyChunk :=
  ((makeChunks doc cs ov).toOption).getD []

/-! ## Concrete inputs used by witnesses and counterexamples -/

/-- Document with a given raw text and fixed metadata. -/
def demoDoc (raw : List Char) : PyDoc :=
  ⟨['d'], ['t'], ['p'], raw⟩

/-- Transcript buffer of the spec example
(two segments, "Hello world" at 0.0s and "this is a test" at 2.0s). -/
def demoRaw : List Char := "Hello world this is a test".toList

/-- PositionMap of the spec example. -/
def demoPM : List PMEntry :=
  [⟨0, 11, 0, "Hello world".toList⟩, ⟨11, 26, 2, " this is a test".toList⟩]

/-- Stored chunks used to exercise `get_context_window`. -/
def demoStored : List StoredChunk :=
  [⟨"a", 35, "v"⟩, ⟨"b", 5, "v"⟩, ⟨"c", 20, "v"⟩, ⟨"d", 90, "v"⟩]

/-- First chunk of the example buffer at `chunk_size 3, overlap 1`. -/
def demoChunk1 : PyChunk :=
  ⟨"d:0001".toList, "Hello world this".toList, (0, 16), 3, ['d'], ['t'], ['p']⟩

/-- First chunk of the buffer "ab cd" at `chunk_size 1, overlap 0`. -/
def demoChunkA : PyChunk :=
  ⟨"d:0001".toList, "ab".toList, (0, 2), 1, ['d'], ['t'], ['p']⟩

/-- Second chunk of the buffer "ab cd" at `chunk_size 1, overlap 0`. -/
def demoChunkB : PyChunk :=
  ⟨"d:0002".toList, "cd".toList, (3, 5), 1, ['d'], ['t'], ['p']⟩

/-- Single chunk of the buffer " a" (leading whitespace) at
`chunk_size 2, overlap 0`. -/
def demoChunkPad : PyChunk :=
  ⟨"d:0001".toList, "a".toList, (1, 2), 1, ['d'], ['t'], ['p']⟩

/-- Output of the spec-modelled `chunk_transcript` on the example buffer. -/
def demoOut : List (PyChunk × ℚ) :=
  ((makeChunks (demoDoc demoRaw) 3 1).toOption.getD []).map
    (fun c => (c, resolveTimestamp demoPM c.span.1))

/-! ## Lemmas on buffer suffixes -/

theorem drop_cons_getD {raw rest : List Char} {c : Char} {k : Nat}
    (h : raw.drop k = c :: rest) (d : Char) : raw.getD k d = c := by
  have h0 : (raw.drop k)[0]? = some c := by rw [h]; simp
  rw [List.getElem?_drop] at h0
  simp only [Nat.add_zero] at h0
  simp [List.getD_eq_getElem?_getD, h0]

theorem drop_cons_succ {raw rest : List Char} {c : Char} {k : Nat}
    (h : raw.drop k = c :: rest) : raw.drop (k + 1) = rest := by
  have h1 : (raw.drop k).drop 1 = rest := by rw [h]; rfl
  rwa [List.drop_drop] at h1

theorem drop_cons_lt {raw rest : List Char} {c : Char} {k : Nat}
    (h : raw.drop k = c :: rest) : k < raw.length := by
  by_contra hk
  push_neg at hk
  rw [List.drop_eq_nil_of_le hk] at h
  exact List.noConfusion h

theorem prefixOf_drop_head {raw t' : List Char} {c : Char} {i : Nat}
    (hp : ((c :: t').isPrefixOf (raw.drop i)) = true) : raw.getD i ' ' = c := by
  obtain ⟨s, hs⟩ := List.isPrefixOf_iff_prefix.1 hp
  have h0 : raw.drop i = c :: (t' ++ s) := by rw [← hs]; rfl
  exact drop_cons_getD h0 ' '

/-! ## Lemmas on the Python find loop -/

theorem pyFindFuel_eq_some {w raw : List Char} {k : Nat} :
    ∀ fuel pos, pos ≤ k → k - pos < fuel →
      w.isPrefixOf (raw.drop k) = true →
      (∀ i, pos ≤ i → i < k → w.isPrefixOf (raw.drop i) = false) →
      pyFindFuel w raw pos fuel = some k := by
  intro fuel
  induction fuel with
  | zero => intro pos h1 h2 _ _; omega
  | succ n ih =>
    intro pos h1 h2 h3 h4
    rw [pyFindFuel]
    by_cases hp : w.isPrefixOf (raw.drop pos) = true
    · have hpk : pos = k := by
        by_contra hne
        have hlt : pos < k := lt_of_le_of_ne h1 hne
        rw [h4 pos le_rfl hlt] at hp
        exact Bool.noConfusion hp
      rw [if_pos hp, hpk]
    · rw [if_neg hp]
      have hlt : pos < k := by
        rcases eq_or_lt_of_le h1 with he | hl
        · exact absurd (he ▸ h3) hp
        · exact hl
      exact ih (pos + 1) hlt (by omega) h3 (fun i hi1 hi2 => h4 i (by omega) hi2)

theorem pyFind_eq_some {w raw : List Char} {k pos : Nat}
    (h1 : pos ≤ k) (hk : k ≤ raw.length)
    (h3 : w.isPrefixOf (raw.drop k) = true)
    (h4 : ∀ i, pos ≤ i → i < k → w.isPrefixOf (raw.drop i) = false) :
    pyFind w raw pos = some k :=
  pyFindFuel_eq_some _ pos h1 (by omega) h3 h4

/-! ## Structure of the offset tokenization -/

theorem drop_takeWhile_length (q : Char → Bool) (l : List Char) :
    l.drop (l.takeWhile q).length = l.dropWhile q := by
  calc l.drop (l.takeWhile q).length
      = (l.takeWhile q ++ l.dropWhile q).drop (l.takeWhile q).length := by
        rw [List.takeWhile_append_dropWhile]
    _ = l.dropWhile q := List.drop_left _ _

theorem drop_add_takeWhile {raw rest : List Char} {c : Char} {k : Nat}
    (h : raw.drop k = c :: rest) (q : Char → Bool) :
    raw.drop (k + ((c :: rest).takeWhile q).length) = (c :: rest).dropWhile q := by
  rw [← List.drop_drop, h, drop_takeWhile_length]

theorem tokenize_mem {raw : List Char} :
    ∀ fuel k, (raw.drop k).length ≤ fuel →
      ∀ t ∈ tokenizeOffFuel fuel (raw.drop k) k,
        k ≤ t.1 ∧ t.2 ≠ [] ∧ pyIsSpace (raw.getD t.1 ' ') = false ∧
          t.2.isPrefixOf (raw.drop t.1) = true := by
  intro fuel
  induction fuel with
  | zero =>
    intro k _ t ht
    simp [tokenizeOffFuel] at ht
  | succ n ih =>
    intro k hlen t ht
    cases hdk : raw.drop k with
    | nil => rw [hdk] at ht; simp [tokenizeOffFuel] at ht
    | cons c rest =>
      rw [hdk] at ht hlen
      simp only [tokenizeOffFuel] at ht
      by_cases hsp : pyIsSpace c = true
      · rw [if_pos hsp] at ht
        have hrest : raw.drop (k + 1) = rest := drop_cons_succ hdk
        have hr := ih (k + 1) (by rw [hrest]; simpa using Nat.le_of_succ_le_succ hlen) t
          (by rw [hrest]; exact ht)
        exact ⟨by omega, hr.2.1, hr.2.2.1, hr.2.2.2⟩
      · rw [if_neg hsp] at ht
        rcases List.mem_cons.1 ht with hhead | htail
        · subst hhead
          refine ⟨le_rfl, ?_, ?_, ?_⟩
          · rw [List.takeWhile_cons_of_pos (by simp [hsp])]
            exact List.cons_ne_nil _ _
          · rw [drop_cons_getD hdk]
            exact (Bool.not_eq_true _) ▸ hsp
          · rw [hdk]
            exact List.isPrefixOf_iff_prefix.2 ( List.takeWhile_prefix _)
        · have hcont : raw.drop (k + ((c :: rest).takeWhile (fun x => !pyIsSpace x)).length)
              = (c :: rest).dropWhile (fun x => !pyIsSpace x) := drop_add_takeWhile hdk _
          have hlen2 : ((c :: rest).dropWhile (fun x => !pyIsSpace x)).length ≤ n := by
            rw [List.dropWhile_cons_of_pos (by simp [hsp])]
            have := (@List.dropWhile_suffix Char rest (fun x => !pyIsSpace x)).length_le
            simp only [List.length_cons] at hlen
            omega
          have hr := ih (k + ((c :: rest).takeWhile (fun x => !pyIsSpace x)).length)
            (by rw [hcont]; exact hlen2) t (by rw [hcont]; exact htail)
          exact ⟨by omega, hr.2.1, hr.2.2.1, hr.2.2.2⟩

theorem tokenize_chain {raw : List Char} :
    ∀ fuel k, (raw.drop k).length ≤ fuel →
      List.Chain' tokGap (tokenizeOffFuel fuel (raw.drop k) k) := by
  intro fuel
  induction fuel with
  | zero => intro k _; simp [tokenizeOffFuel]
  | succ n ih =>
    intro k hlen
    cases hdk : raw.drop k with
    | nil => simp [tokenizeOffFuel]
    | cons c rest =>
      rw [hdk] at hlen
      simp only [List.length_cons] at hlen
      simp only [tokenizeOffFuel]
      by_cases hsp : pyIsSpace c = true
      · rw [if_pos hsp]
        have hrest : raw.drop (k + 1) = rest := drop_cons_succ hdk
        have := ih (k + 1) (by rw [hrest]; omega)
        rwa [hrest] at this
      · rw [if_neg hsp]
        have hcont : raw.drop (k + ((c :: rest).takeWhile (fun x => !pyIsSpace x)).length)
            = (c :: rest).dropWhile (fun x => !pyIsSpace x) := drop_add_takeWhile hdk _
        have hlen2 : ((c :: rest).dropWhile (fun x => !pyIsSpace x)).length ≤ n := by
          rw [List.dropWhile_cons_of_pos (by simp [hsp])]
          have := (@List.dropWhile_suffix Char rest (fun x => !pyIsSpace x)).length_le
          omega
        refine List.chain'_cons'.2 ⟨?_, ?_⟩
        · intro y hy
          have hymem : y ∈ tokenizeOffFuel n ((c :: rest).dropWhile (fun x => !pyIsSpace x))
              (k + ((c :: rest).takeWhile (fun x => !pyIsSpace x)).length) :=
            List.mem_of_mem_head? hy
          rw [← hcont] at hymem
          have := tokenize_mem n _ (by rw [hcont]; exact hlen2) y hymem
          exact this.1
        · have := ih (k + ((c :: rest).takeWhile (fun x => !pyIsSpace x)).length)
            (by rw [hcont]; exact hlen2)
          rwa [hcont] at this

theorem tokenize_cover {raw : List Char} :
    ∀ fuel k, (raw.drop k).length ≤ fuel →
      ∀ p, k ≤ p → p < raw.length → pyIsSpace (raw.getD p ' ') = false →
        ∃ t ∈ tokenizeOffFuel fuel (raw.drop k) k, t.1 ≤ p ∧ p < t.1 + t.2.length := by
  intro fuel
  induction fuel with
  | zero =>
    intro k hlen p hkp hp _
    rw [Nat.le_zero, List.length_eq_zero] at hlen
    have := List.length_drop k raw
    rw [hlen] at this
    simp only [List.length_nil] at this
    omega
  | succ n ih =>
    intro k hlen p hkp hp hns
    cases hdk : raw.drop k with
    | nil =>
      have := List.length_drop k raw
      rw [hdk] at this
      simp only [List.length_nil] at this
      omega
    | cons c rest =>
      rw [hdk] at hlen
      simp only [List.length_cons] at hlen
      simp only [tokenizeOffFuel]
      by_cases hsp : pyIsSpace c = true
      · rw [if_pos hsp]
        have hrest : raw.drop (k + 1) = rest := drop_cons_succ hdk
        have hne : k ≠ p := by
          intro he
          rw [← he, drop_cons_getD hdk] at hns
          rw [hns] at hsp
          exact Bool.noConfusion hsp
        have hr := ih (k + 1) (by rw [hrest]; omega) p (by omega) hp hns
        rwa [hrest] at hr
      · rw [if_neg hsp]
        by_cases hin : p < k + ((c :: rest).takeWhile (fun x => !pyIsSpace x)).length
        · exact ⟨_, List.mem_cons_self _ _, hkp, hin⟩
        · push_neg at hin
          have hcont : raw.drop (k + ((c :: rest).takeWhile (fun x => !pyIsSpace x)).length)
              = (c :: rest).dropWhile (fun x => !pyIsSpace x) := drop_add_takeWhile hdk _
          have hlen2 : ((c :: rest).dropWhile (fun x => !pyIsSpace x)).length ≤ n := by
            rw [List.dropWhile_cons_of_pos (by simp [hsp])]
            have := (@List.dropWhile_suffix Char rest (fun x => !pyIsSpace x)).length_le
            omega
          have hr := ih (k + ((c :: rest).takeWhile (fun x => !pyIsSpace x)).length)
            (by rw [hcont]; exact hlen2) p hin hp hns
          rw [hcont] at hr
          obtain ⟨t, ht, h1, h2⟩ := hr
          exact ⟨t, List.mem_cons_of_mem _ ht, h1, h2⟩

/-! ## The find-based word-start loop recovers the true token offsets -/

theorem wordStartsLoop_cons_found {raw w : List Char} {ws : List (List Char)} {pos k : Nat}
    (hf : pyFind w raw pos = some k) :
    wordStartsLoop raw (w :: ws) pos = k :: wordStartsLoop raw ws (k + w.length) := by
  simp [wordStartsLoop, hf]

theorem wordStarts_eq {raw : List Char} :
    ∀ fuel k pos, (raw.drop k).length ≤ fuel → pos ≤ k →
      (∀ i, pos ≤ i → i < k → pyIsSpace (raw.getD i ' ') = true) →
      wordStartsLoop raw ((tokenizeOffFuel fuel (raw.drop k) k).map Prod.snd) pos =
        (tokenizeOffFuel fuel (raw.drop k) k).map Prod.fst := by
  intro fuel
  induction fuel with
  | zero => intro k pos _ _ _; simp [tokenizeOffFuel, wordStartsLoop]
  | succ n ih =>
    intro k pos hlen hpos hspaces
    cases hdk : raw.drop k with
    | nil => simp [tokenizeOffFuel, wordStartsLoop]
    | cons c rest =>
      rw [hdk] at hlen
      simp only [List.length_cons] at hlen
      simp only [tokenizeOffFuel]
      by_cases hsp : pyIsSpace c = true
      · rw [if_pos hsp]
        have hrest : raw.drop (k + 1) = rest := drop_cons_succ hdk
        have hsp2 : ∀ i, pos ≤ i → i < k + 1 → pyIsSpace (raw.getD i ' ') = true := by
          intro i h1 h2
          rcases Nat.lt_or_ge i k with h | h
          · exact hspaces i h1 h
          · have hik : i = k := by omega
            rw [hik, drop_cons_getD hdk]
            exact hsp
        have := ih (k + 1) pos (by rw [hrest]; omega) (by omega) hsp2
        rwa [hrest] at this
      · rw [if_neg hsp]
        have hthead : (c :: rest).takeWhile (fun x => !pyIsSpace x)
            = c :: rest.takeWhile (fun x => !pyIsSpace x) :=
          List.takeWhile_cons_of_pos (by simp [hsp])
        have hfind : pyFind ((c :: rest).takeWhile (fun x => !pyIsSpace x)) raw pos = some k := by
          apply pyFind_eq_some hpos (le_of_lt (drop_cons_lt hdk))
          · rw [hdk]
            exact List.isPrefixOf_iff_prefix.2 ( List.takeWhile_prefix _)
          · intro i h1 h2
            rw [hthead, Bool.eq_false_iff]
            intro htrue
            have hc := prefixOf_drop_head htrue
            have := hspaces i h1 h2
            rw [hc] at this
            rw [this] at hsp
            exact hsp rfl
        rw [List.map_cons, wordStartsLoop_cons_found hfind, List.map_cons]
        have hcont : raw.drop (k + ((c :: rest).takeWhile (fun x => !pyIsSpace x)).length)
            = (c :: rest).dropWhile (fun x => !pyIsSpace x) := drop_add_takeWhile hdk _
        have hlen2 : ((c :: rest).dropWhile (fun x => !pyIsSpace x)).length ≤ n := by
          rw [List.dropWhile_cons_of_pos (by simp [hsp])]
          have := (@List.dropWhile_suffix Char rest (fun x => !pyIsSpace x)).length_le
          omega
        have hrec := ih (k + ((c :: rest).takeWhile (fun x => !pyIsSpace x)).length)
          (k + ((c :: rest).takeWhile (fun x => !pyIsSpace x)).length)
          (by rw [hcont]; exact hlen2) le_rfl (by intro i h1 h2; omega)
        rw [hcont] at hrec
        rw [hrec]

theorem wordStarts_main (raw : List Char) :
    wordStartsLoop raw (pySplit raw) 0 = (tokenizeOff raw).map Prod.fst := by
  have h0 : raw.drop 0 = raw := List.drop_zero raw
  have := @wordStarts_eq raw raw.length 0 0 (by rw [h0]) le_rfl
    (by intro i h1 h2; omega)
  rw [h0] at this
  exact this

/-! ## Token facts at the top level -/

theorem tokenize_mem0 {raw : List Char} {t : Nat × List Char} (ht : t ∈ tokenizeOff raw) :
    t.2 ≠ [] ∧ pyIsSpace (raw.getD t.1 ' ') = false ∧
      t.2.isPrefixOf (raw.drop t.1) = true ∧ t.1 + t.2.length ≤ raw.length := by
  have h0 : raw.drop 0 = raw := List.drop_zero raw
  have ht' : t ∈ tokenizeOffFuel raw.length (raw.drop 0) 0 := by rw [h0]; exact ht
  have hm := @tokenize_mem raw raw.length 0 (by rw [h0]) t ht'
  refine ⟨hm.2.1, hm.2.2.1, hm.2.2.2, ?_⟩
  have hp := hm.2.2.2
  have hlen := ( List.isPrefixOf_iff_prefix.1 hp).length_le
  rw [List.length_drop] at hlen
  have hpos : 0 < t.2.length := List.length_pos.2 hm.2.1
  omega

theorem tokenize_cover0 {raw : List Char} {p : Nat} (hp : p < raw.length)
    (hns : pyIsSpace (raw.getD p ' ') = false) :
    ∃ t ∈ tokenizeOff raw, t.1 ≤ p ∧ p < t.1 + t.2.length := by
  have h0 : raw.drop 0 = raw := List.drop_zero raw
  have := @tokenize_cover raw raw.length 0 (by rw [h0]) p (Nat.zero_le p) hp hns
  rwa [h0] at this

theorem tokenize_pairwise (raw : List Char) : List.Pairwise tokGap (tokenizeOff raw) := by
  have h0 : raw.drop 0 = raw := List.drop_zero raw
  have := @tokenize_chain raw raw.length 0 (by rw [h0])
  rw [h0] at this
  exact List.chain'_iff_pairwise.1 this

theorem tok_gap_get {raw : List Char} {a b : Nat} (ha : a < (tokenizeOff raw).length)
    (hb : b < (tokenizeOff raw).length) (hab : a < b) :
    ((tokenizeOff raw).get ⟨a, ha⟩).1 + ((tokenizeOff raw).get ⟨a, ha⟩).2.length
      ≤ ((tokenizeOff raw).get ⟨b, hb⟩).1 :=
  (List.pairwise_iff_get.1 (tokenize_pairwise raw)) ⟨a, ha⟩ ⟨b, hb⟩ hab

theorem tok_len_pos {raw : List Char} {m : Nat} (hm : m < (tokenizeOff raw).length) :
    0 < ((tokenizeOff raw).get ⟨m, hm⟩).2.length :=
  List.length_pos.2 (tokenize_mem0 (List.get_mem _ _ hm)).1

theorem tok_start_lt {raw : List Char} {a b : Nat} (ha : a < (tokenizeOff raw).length)
    (hb : b < (tokenizeOff raw).length) (hab : a < b) :
    ((tokenizeOff raw).get ⟨a, ha⟩).1 < ((tokenizeOff raw).get ⟨b, hb⟩).1 := by
  have := tok_gap_get ha hb hab
  have := tok_len_pos ha
  omega

theorem tok_start_le_iff {raw : List Char} {a m : Nat} (ha : a < (tokenizeOff raw).length)
    (hm : m < (tokenizeOff raw).length) :
    ((tokenizeOff raw).get ⟨a, ha⟩).1 ≤ ((tokenizeOff raw).get ⟨m, hm⟩).1 ↔ a ≤ m := by
  constructor
  · intro h
    by_contra hc
    push_neg at hc
    have := tok_start_lt hm ha hc
    omega
  · intro h
    rcases eq_or_lt_of_le h with he | hl
    · subst he; rfl
    · exact le_of_lt (tok_start_lt ha hm hl)

theorem tok_end_lt {raw : List Char} {a b : Nat} (ha : a < (tokenizeOff raw).length)
    (hb : b < (tokenizeOff raw).length) (hab : a < b) :
    ((tokenizeOff raw).get ⟨a, ha⟩).1 + ((tokenizeOff raw).get ⟨a, ha⟩).2.length
      < ((tokenizeOff raw).get ⟨b, hb⟩).1 + ((tokenizeOff raw).get ⟨b, hb⟩).2.length := by
  have := tok_gap_get ha hb hab
  have := tok_len_pos hb
  omega

theorem tok_end_le_iff {raw : List Char} {m b : Nat} (hm : m < (tokenizeOff raw).length)
    (hb : b < (tokenizeOff raw).length) :
    ((tokenizeOff raw).get ⟨m, hm⟩).1 + ((tokenizeOff raw).get ⟨m, hm⟩).2.length
        ≤ ((tokenizeOff raw).get ⟨b, hb⟩).1 + ((tokenizeOff raw).get ⟨b, hb⟩).2.length
      ↔ m ≤ b := by
  constructor
  · intro h
    by_contra hc
    push_neg at hc
    have := tok_end_lt hb hm hc
    omega
  · intro h
    rcases eq_or_lt_of_le h with he | hl
    · subst he; rfl
    · exact le_of_lt (tok_end_lt hm hb hl)

/-! ## Properties of the window sequence visited by the chunk loop -/

theorem windows_ge (n window step : Nat) : ∀ fuel i, n ≤ i →
    windowsFuel n window step i fuel = [] := by
  intro fuel i hi
  cases fuel with
  | zero => rfl
  | succ m => simp only [windowsFuel, if_neg (by omega : ¬ i < n)]

theorem windows_head? {n window step i fuel : Nat} (hi : i < n) (hf : 0 < fuel) :
    (windowsFuel n window step i fuel).head? = some (i, min (i + window) n) := by
  cases fuel with
  | zero => omega
  | succ m =>
    simp only [windowsFuel, if_pos hi]
    by_cases hj : min (i + window) n = n
    · rw [if_pos hj]; rfl
    · rw [if_neg hj]; rfl

theorem windows_ne {n window step i fuel : Nat} (hi : i < n) (hf : 0 < fuel) :
    windowsFuel n window step i fuel ≠ [] := by
  intro he
  have := @windows_head? n window step i fuel hi hf
  rw [he] at this
  exact Option.noConfusion this

theorem windows_mem {n window step : Nat} (hw : 0 < window) :
    ∀ fuel i, ∀ w ∈ windowsFuel n window step i fuel, winGood n window w := by
  intro fuel
  induction fuel with
  | zero => intro i w hwin; simp [windowsFuel] at hwin
  | succ m ih =>
    intro i w hwin
    simp only [windowsFuel] at hwin
    by_cases hi : i < n
    · rw [if_pos hi] at hwin
      by_cases hj : min (i + window) n = n
      · rw [if_pos hj] at hwin
        have hww : w = (i, min (i + window) n) := by simpa using hwin
        subst hww
        exact ⟨hi, rfl, by omega⟩
      · rw [if_neg hj] at hwin
        rcases List.mem_cons.1 hwin with hww | htail
        · subst hww
          exact ⟨hi, rfl, by omega⟩
        · exact ih (i + step) w htail
    · rw [if_neg hi] at hwin
      simp at hwin

theorem windows_chain {n window step : Nat} (hw : 0 < window) :
    ∀ fuel i, List.Chain' (winRel n window step) (windowsFuel n window step i fuel) := by
  intro fuel
  induction fuel with
  | zero => intro i; simp [windowsFuel]
  | succ m ih =>
    intro i
    by_cases hi : i < n
    · simp only [windowsFuel, if_pos hi]
      by_cases hj : min (i + window) n = n
      · rw [if_pos hj]; exact List.chain'_singleton _
      · rw [if_neg hj]
        refine List.chain'_cons'.2 ⟨?_, ih (i + step)⟩
        intro y hy
        rcases Nat.lt_or_ge (i + step) n with hin | hin
        · cases m with
          | zero => simp [windowsFuel] at hy
          | succ m' =>
            rw [windows_head? hin (Nat.succ_pos _)] at hy
            have hyy : (i + step, min (i + step + window) n) = y := by simpa using hy
            subst hyy
            exact ⟨⟨hi, rfl, by omega⟩, ⟨hin, rfl, by omega⟩, rfl⟩
        · rw [windows_ge _ _ _ _ _ hin] at hy
          simp at hy
    · rw [windows_ge _ _ _ _ _ (by omega)]
      exact List.chain'_nil

theorem windows_cover {n window step : Nat} (hs : 0 < step) (hsw : step ≤ window) :
    ∀ fuel i, n ≤ fuel + i →
      ∀ k, i ≤ k → k < n →
        ∃ w ∈ windowsFuel n window step i fuel, w.1 ≤ k ∧ k < w.2 := by
  intro fuel
  induction fuel with
  | zero => intro i h k h1 h2; omega
  | succ m ih =>
    intro i hfi k h1 h2
    have hi : i < n := by omega
    simp only [windowsFuel, if_pos hi]
    by_cases hk : k < min (i + window) n
    · by_cases hj : min (i + window) n = n
      · rw [if_pos hj]
        exact ⟨(i, min (i + window) n), List.mem_singleton_self _, h1, hk⟩
      · rw [if_neg hj]
        exact ⟨(i, min (i + window) n), List.mem_cons_self _ _, h1, hk⟩
    · push_neg at hk
      have hj : ¬ min (i + window) n = n := by omega
      rw [if_neg hj]
      have hik : i + step ≤ k := by omega
      obtain ⟨w, hwmem, hw1, hw2⟩ := ih (i + step) (by omega) k hik h2
      exact ⟨w, List.mem_cons_of_mem _ hwmem, hw1, hw2⟩

/-! ## Relating the chunk loop to its window sequence -/

theorem chunkLoop_eq (doc : PyDoc) (words : List (List Char)) (ws : List Nat)
    (window step : Nat) :
    ∀ fuel cnt i, chunkLoopFuel doc words ws window step cnt i fuel =
      mapChunks doc words ws cnt (windowsFuel words.length window step i fuel) := by
  intro fuel
  induction fuel with
  | zero => intro cnt i; rfl
  | succ m ih =>
    intro cnt i
    simp only [chunkLoopFuel, windowsFuel]
    by_cases hi : i < words.length
    · rw [if_pos hi, if_pos hi]
      by_cases hj : min (i + window) words.length = words.length
      · rw [if_pos hj, if_pos hj]; rfl
      · rw [if_neg hj, if_neg hj]
        simp only [mapChunks]
        rw [ih]
    · rw [if_neg hi, if_neg hi]; rfl

theorem mapChunks_map_span (doc : PyDoc) (words : List (List Char)) (ws : List Nat) :
    ∀ cnt l, (mapChunks doc words ws cnt l).map PyChunk.span = l.map (spanOfWin words ws) := by
  intro cnt l
  induction l generalizing cnt with
  | nil => rfl
  | cons w rest ih =>
    simp only [mapChunks, List.map_cons]
    rw [ih (cnt + 1)]
    congr 1

theorem mapChunks_mem_span (doc : PyDoc) (words : List (List Char)) (ws : List Nat) :
    ∀ cnt l w, w ∈ l →
      ∃ c ∈ mapChunks doc words ws cnt l, c.span = spanOfWin words ws w := by
  intro cnt l
  induction l generalizing cnt with
  | nil => intro w hw; simp at hw
  | cons x rest ih =>
    intro w hw
    rcases List.mem_cons.1 hw with hwx | hwr
    · subst hwx
      refine ⟨_, List.mem_cons_self _ _, ?_⟩
      simp only [buildChunk, spanOfWin]
    · obtain ⟨c, hc1, hc2⟩ := ih (cnt + 1) w hwr
      exact ⟨c, List.mem_cons_of_mem _ hc1, hc2⟩

theorem mapChunks_ne (doc : PyDoc) (words : List (List Char)) (ws : List Nat)
    (cnt : Nat) {l : List (Nat × Nat)} (hl : l ≠ []) :
    mapChunks doc words ws cnt l ≠ [] := by
  cases l with
  | nil => exact absurd rfl hl
  | cons w rest => simp [mapChunks]

/-! ## Unfolding `make_chunks` under valid parameters -/

theorem pySplit_length (raw : List Char) :
    (pySplit raw).length = (tokenizeOff raw).length :=
  List.length_map _ _

theorem ws_getD {raw : List Char} {m : Nat} (hm : m < (tokenizeOff raw).length) :
    ((tokenizeOff raw).map Prod.fst).getD m 0 = ((tokenizeOff raw).get ⟨m, hm⟩).1 := by
  rw [List.getD_eq_getElem?_getD, List.getElem?_map, List.getElem?_eq_getElem hm]
  rfl

theorem words_getD {raw : List Char} {m : Nat} (hm : m < (tokenizeOff raw).length) :
    (pySplit raw).getD m [] = ((tokenizeOff raw).get ⟨m, hm⟩).2 := by
  rw [pySplit, List.getD_eq_getElem?_getD, List.getElem?_map, List.getElem?_eq_getElem hm]
  rfl

theorem makeChunks_valid_empty {doc : PyDoc} {cs ov : Int}
    (h1 : 0 < cs) (h2 : 0 ≤ ov) (h3 : ov < cs)
    (hw : (pySplit doc.rawText).length = 0) : makeChunks doc cs ov = .ok [] := by
  simp only [makeChunks]
  rw [if_neg (by omega), if_neg (by omega), if_neg (by omega), if_pos hw]

theorem makeChunks_valid_pos {doc : PyDoc} {cs ov : Int}
    (h1 : 0 < cs) (h2 : 0 ≤ ov) (h3 : ov < cs)
    (hw : ¬ (pySplit doc.rawText).length = 0) :
    makeChunks doc cs ov = .ok (mapChunks doc (pySplit doc.rawText)
      (wordStartsLoop doc.rawText (pySplit doc.rawText) 0) 0
      (windowsFuel (pySplit doc.rawText).length cs.toNat (cs - ov).toNat 0
        (pySplit doc.rawText).length)) := by
  simp only [makeChunks]
  rw [if_neg (by omega), if_neg (by omega), if_neg (by omega), if_neg hw]
  rw [chunkLoop_eq]
  have hne : mapChunks doc (pySplit doc.rawText)
      (wordStartsLoop doc.rawText (pySplit doc.rawText) 0) 0
      (windowsFuel (pySplit doc.rawText).length cs.toNat (cs - ov).toNat 0
        (pySplit doc.rawText).length) ≠ [] := by
    apply mapChunks_ne
    exact windows_ne (by omega) (by omega)
  rw [if_neg (by rw [List.isEmpty_iff]; exact hne)]

theorem spanOfWin_eq {raw : List Char} {w : Nat × Nat}
    (h1 : w.1 < (tokenizeOff raw).length) (h2 : w.1 < w.2)
    (h3 : w.2 ≤ (tokenizeOff raw).length) :
    spanOfWin (pySplit raw) ((tokenizeOff raw).map Prod.fst) w =
      (((tokenizeOff raw).get ⟨w.1, h1⟩).1,
       ((tokenizeOff raw).get ⟨w.2 - 1, by omega⟩).1 +
         ((tokenizeOff raw).get ⟨w.2 - 1, by omega⟩).2.length) := by
  have hlen : (((pySplit raw).drop w.1).take (w.2 - w.1)).length > 0 := by
    rw [List.length_take, List.length_drop, pySplit_length]
    omega
  rw [spanOfWin, if_pos hlen, ws_getD h1, ws_getD (by omega : w.2 - 1 < (tokenizeOff raw).length),
    words_getD (by omega : w.2 - 1 < (tokenizeOff raw).length)]

/-! ## Counting tokens inside an index interval -/

theorem filter_interval_length_le {α : Type} (p : α → Bool) :
    ∀ (l : List α) (a b : Nat),
      (∀ m (hm : m < l.length), (p (l.get ⟨m, hm⟩) = true ↔ a ≤ m ∧ m < b)) →
      (l.filter p).length ≤ b - a := by
  intro l
  induction l with
  | nil => intro a b _; simp
  | cons x xs ih =>
    intro a b hp
    have hx := hp 0 (by simp)
    by_cases hpx : p x = true
    · obtain ⟨ha, hb⟩ := hx.1 hpx
      rw [List.filter_cons_of_pos hpx]
      simp only [List.length_cons]
      have htail := ih 0 (b - 1) ?_
      · omega
      · intro m hm
        have h2 := hp (m + 1) (by simpa using Nat.succ_lt_succ hm)
        rw [List.get_cons_succ] at h2
        exact h2.trans (by omega)
    · rw [List.filter_cons_of_neg hpx]
      have hor : 1 ≤ a ∨ b = 0 := by
        by_contra hc
        push_neg at hc
        exact hpx (hx.2 ⟨by omega, by omega⟩)
      rcases hor with ha | hb
      · have htail := ih (a - 1) (b - 1) ?_
        · omega
        · intro m hm
          have h2 := hp (m + 1) (by simpa using Nat.succ_lt_succ hm)
          rw [List.get_cons_succ] at h2
          exact h2.trans (by omega)
      · subst hb
        have htail := ih a 0 ?_
        · omega
        · intro m hm
          have h2 := hp (m + 1) (by simpa using Nat.succ_lt_succ hm)
          rw [List.get_cons_succ] at h2
          exact h2.trans (by omega)

/-! ## Span-level properties of the emitted chunk sequence -/

theorem span_chain_lt {raw : List Char} {window step : Nat}
    (hw : 0 < window) (hs : 0 < step) :
    List.Chain' (fun s1 s2 : Nat × Nat => s1.1 < s2.1)
      ((windowsFuel (tokenizeOff raw).length window step 0 (tokenizeOff raw).length).map
        (spanOfWin (pySplit raw) ((tokenizeOff raw).map Prod.fst))) := by
  rw [List.chain'_map]
  apply List.Chain'.imp ?_ (windows_chain hw _ 0)
  intro a b hrel
  obtain ⟨⟨ha1, ha2, ha3⟩, ⟨hb1, hb2, hb3⟩, hstep⟩ := hrel
  rw [spanOfWin_eq ha1 ha3 (by omega), spanOfWin_eq hb1 hb3 (by omega)]
  exact tok_start_lt ha1 hb1 (by omega)

theorem span_chain_overlap {raw : List Char} {window step : Nat}
    (hw : 0 < window) (hs : 0 < step) (hsw : step ≤ window) :
    List.Chain' (fun s1 s2 : Nat × Nat => sharedTokens raw s1 s2 ≤ window - step)
      ((windowsFuel (tokenizeOff raw).length window step 0 (tokenizeOff raw).length).map
        (spanOfWin (pySplit raw) ((tokenizeOff raw).map Prod.fst))) := by
  rw [List.chain'_map]
  apply List.Chain'.imp ?_ (windows_chain hw _ 0)
  intro a b hrel
  obtain ⟨⟨ha1, ha2, ha3⟩, ⟨hb1, hb2, hb3⟩, hstep⟩ := hrel
  simp only [sharedTokens]
  rw [spanOfWin_eq ha1 ha3 (by omega), spanOfWin_eq hb1 hb3 (by omega)]
  refine le_trans (filter_interval_length_le _ (tokenizeOff raw) b.1 a.2 ?_) (by omega)
  intro m hm
  simp only [inSpanTok, Bool.and_eq_true, decide_eq_true_eq]
  constructor
  · rintro ⟨⟨hA1, hA2⟩, hB1, hB2⟩
    have hm1 := (tok_start_le_iff hb1 hm).1 hB1
    have hm2 := (tok_end_le_iff hm (by omega)).1 hA2
    omega
  · rintro ⟨hm1, hm2⟩
    refine ⟨⟨?_, ?_⟩, ?_, ?_⟩
    · exact (tok_start_le_iff ha1 hm).2 (by omega)
    · exact (tok_end_le_iff hm (by omega)).2 (by omega)
    · exact (tok_start_le_iff hb1 hm).2 (by omega)
    · exact (tok_end_le_iff hm (by omega)).2 (by omega)

theorem span_cover_char {raw : List Char} {window step : Nat}
    (hw : 0 < window) (hs : 0 < step) (hsw : step ≤ window)
    {p : Nat} (hp : p < raw.length) (hns : pyIsSpace (raw.getD p ' ') = false) :
    ∃ s ∈ (windowsFuel (tokenizeOff raw).length window step 0 (tokenizeOff raw).length).map
        (spanOfWin (pySplit raw) ((tokenizeOff raw).map Prod.fst)),
      s.1 ≤ p ∧ p < s.2 := by
  obtain ⟨t, htmem, ht1, ht2⟩ := tokenize_cover0 hp hns
  obtain ⟨m, hm, hmt⟩ := List.mem_iff_getElem.1 htmem
  have hmt' : (tokenizeOff raw).get ⟨m, hm⟩ = t := by
    rw [List.get_eq_getElem]
    exact hmt
  obtain ⟨w, hwmem, hw1, hw2⟩ :=
    windows_cover hs hsw (tokenizeOff raw).length 0 (by omega) m (by omega) hm
  refine ⟨spanOfWin (pySplit raw) ((tokenizeOff raw).map Prod.fst) w,
    List.mem_map_of_mem _ hwmem, ?_⟩
  obtain ⟨hg1, hg2, hg3⟩ := windows_mem hw _ 0 w hwmem
  rw [spanOfWin_eq hg1 hg3 (by omega)]
  constructor
  · have hle : ((tokenizeOff raw).get ⟨w.1, hg1⟩).1 ≤ ((tokenizeOff raw).get ⟨m, hm⟩).1 :=
      (tok_start_le_iff hg1 hm).2 hw1
    rw [hmt'] at hle
    omega
  · have hle : ((tokenizeOff raw).get ⟨m, hm⟩).1 + ((tokenizeOff raw).get ⟨m, hm⟩).2.length
        ≤ ((tokenizeOff raw).get ⟨w.2 - 1, by omega⟩).1 +
          ((tokenizeOff raw).get ⟨w.2 - 1, by omega⟩).2.length :=
      (tok_end_le_iff hm (by omega)).2 (by omega)
    rw [hmt'] at hle
    omega

/-! ## The single-window case and edge tokens -/

theorem windows_single {n window step fuel : Nat} (hn : 0 < n) (hnw : n ≤ window)
    (hf : 0 < fuel) : windowsFuel n window step 0 fuel = [(0, n)] := by
  cases fuel with
  | zero => omega
  | succ m =>
    have hmin : min (0 + window) n = n := by omega
    simp only [windowsFuel, if_pos hn, hmin]
    simp

theorem raw_len_pos_of_toks {raw : List Char} (hne : tokenizeOff raw ≠ []) :
    0 < raw.length := by
  by_contra hc
  push_neg at hc
  have hnil : raw = [] := List.eq_nil_of_length_eq_zero (by omega)
  rw [hnil] at hne
  exact hne rfl

theorem tokenize_head_offset {raw : List Char} (hne : tokenizeOff raw ≠ [])
    (hns : pyIsSpace (raw.getD 0 ' ') = false) :
    ((tokenizeOff raw).get ⟨0, List.length_pos.2 hne⟩).1 = 0 := by
  have hlen : 0 < raw.length := raw_len_pos_of_toks hne
  obtain ⟨t, htmem, ht1, ht2⟩ := tokenize_cover0 hlen hns
  obtain ⟨m, hm, hmt⟩ := List.mem_iff_getElem.1 htmem
  have hmt' : (tokenizeOff raw).get ⟨m, hm⟩ = t := by
    rw [List.get_eq_getElem]
    exact hmt
  rcases Nat.eq_zero_or_pos m with h0 | hpos
  · subst h0
    rw [hmt']
    omega
  · have := tok_start_lt (List.length_pos.2 hne) hm hpos
    rw [hmt'] at this
    omega

theorem tokenize_last_end {raw : List Char} (hne : tokenizeOff raw ≠ [])
    (hns : pyIsSpace (raw.getD (raw.length - 1) ' ') = false) :
    ((tokenizeOff raw).getLast hne).1 + ((tokenizeOff raw).getLast hne).2.length
      = raw.length := by
  have hlen : 0 < raw.length := raw_len_pos_of_toks hne
  obtain ⟨t, htmem, ht1, ht2⟩ := tokenize_cover0 (by omega : raw.length - 1 < raw.length) hns
  obtain ⟨m, hm, hmt⟩ := List.mem_iff_getElem.1 htmem
  have hmt' : (tokenizeOff raw).get ⟨m, hm⟩ = t := by
    rw [List.get_eq_getElem]
    exact hmt
  have htend : t.1 + t.2.length = raw.length := by
    have := (tokenize_mem0 htmem).2.2.2
    omega
  have hnpos : 0 < (tokenizeOff raw).length := List.length_pos.2 hne
  have hlast : (tokenizeOff raw).getLast hne
      = (tokenizeOff raw).get ⟨(tokenizeOff raw).length - 1, by omega⟩ := by
    rw [List.getLast_eq_getElem]
    rw [List.get_eq_getElem]
  rcases Nat.lt_or_ge m ((tokenizeOff raw).length - 1) with hlt | hge
  · exfalso
    have hgap := tok_gap_get hm (by omega : (tokenizeOff raw).length - 1 < (tokenizeOff raw).length) hlt
    have hlastmem := (tokenize_mem0
      (List.get_mem _ _ (by omega : (tokenizeOff raw).length - 1 < (tokenizeOff raw).length)))
    have hlastlen := hlastmem.2.2.2
    have hlastpos : 0 < ((tokenizeOff raw).get
        ⟨(tokenizeOff raw).length - 1, by omega⟩).2.length :=
      List.length_pos.2 hlastmem.1
    rw [hmt'] at hgap
    omega
  · have hmeq : m = (tokenizeOff raw).length - 1 := by omega
    subst hmeq
    rw [hlast]
    have hmt2 : (tokenizeOff raw).get ⟨(tokenizeOff raw).length - 1, by omega⟩ = t := hmt'
    rw [hmt2]
    exact htend

/-! ## Characterization of the rfind loop -/

theorem pyRfindChar_eq_some {ch : Char} {s : List Char} {a p : Nat} :
    ∀ e, a ≤ p → p < e → s.getD p ' ' = ch →
      (∀ q, p < q → q < e → ¬ s.getD q ' ' = ch) →
      pyRfindChar ch s a e = some p := by
  intro e
  induction e with
  | zero => intro _ h2 _ _; omega
  | succ n ih =>
    intro h1 h2 hp hq
    rw [pyRfindChar, if_neg (by omega : ¬ n < a)]
    by_cases he : s.getD n ' ' = ch
    · rw [if_pos he]
      have hpn : p = n := by
        by_contra hne
        exact hq n (by omega) (by omega) he
      rw [hpn]
    · rw [if_neg he]
      have hpn : p < n := by
        rcases Nat.lt_or_ge p n with h | h
        · exact h
        · have hp2 : p = n := by omega
          rw [hp2] at hp
          exact absurd hp he
      exact ih h1 hpn hp (fun q hq1 hq2 => hq q hq1 (by omega))

theorem pyRfindChar_eq_none {ch : Char} {s : List Char} {a : Nat} :
    ∀ e, (∀ q, a ≤ q → q < e → ¬ s.getD q ' ' = ch) →
      pyRfindChar ch s a e = none := by
  intro e
  induction e with
  | zero => intro _; rfl
  | succ n ih =>
    intro h
    rw [pyRfindChar]
    by_cases ha : n < a
    · rw [if_pos ha]
    · rw [if_neg ha, if_neg (h n (by omega) (by omega))]
      exact ih (fun q h1 h2 => h q h1 (by omega))

theorem pyRfindChar_bounds {ch : Char} {s : List Char} {a : Nat} :
    ∀ e p, pyRfindChar ch s a e = some p → a ≤ p ∧ p < e := by
  intro e
  induction e with
  | zero => intro p h; exact Option.noConfusion h
  | succ n ih =>
    intro p h
    rw [pyRfindChar] at h
    by_cases ha : n < a
    · rw [if_pos ha] at h
      exact Option.noConfusion h
    · rw [if_neg ha] at h
      by_cases he : s.getD n ' ' = ch
      · rw [if_pos he] at h
        have hnp : n = p := Option.some.inj h
        omega
      · rw [if_neg he] at h
        have := ih p h
        omega

/-! ## Properties of the replace scan -/

theorem pyReplaceDelFuel_nil (pat : List Char) :
    ∀ fuel, pyReplaceDelFuel pat [] fuel = [] := by
  intro fuel
  cases fuel with
  | zero => rfl
  | succ m => rfl

theorem pyReplaceDelFuel_fuel_inv {pat : List Char} :
    ∀ fuel1 fuel2 s, s.length ≤ fuel1 → s.length ≤ fuel2 →
      pyReplaceDelFuel pat s fuel1 = pyReplaceDelFuel pat s fuel2 := by
  intro fuel1
  induction fuel1 with
  | zero =>
    intro fuel2 s h1 _
    have hnil : s = [] := List.eq_nil_of_length_eq_zero (by omega)
    subst hnil
    rw [pyReplaceDelFuel_nil, pyReplaceDelFuel_nil]
  | succ n ih =>
    intro fuel2 s h1 h2
    cases s with
    | nil => rw [pyReplaceDelFuel_nil, pyReplaceDelFuel_nil]
    | cons c rest =>
      cases fuel2 with
      | zero => simp at h2
      | succ m =>
        simp only [pyReplaceDelFuel]
        by_cases hcond : pat ≠ [] ∧ pat.isPrefixOf (c :: rest) = true
        · rw [if_pos hcond, if_pos hcond]
          have hplen : 0 < pat.length := List.length_pos.2 hcond.1
          have hdlen : ((c :: rest).drop pat.length).length ≤ n := by
            rw [List.length_drop]
            simp only [List.length_cons] at h1 ⊢
            omega
          have hdlen2 : ((c :: rest).drop pat.length).length ≤ m := by
            rw [List.length_drop]
            simp only [List.length_cons] at h2 ⊢
            omega
          exact ih m _ hdlen hdlen2
        · rw [if_neg hcond, if_neg hcond]
          simp only [List.length_cons] at h1 h2
          have := ih m rest (by omega) (by omega)
          simpa using this

theorem pyReplaceDel_prefix_step {pat v : List Char} (hne : pat ≠ []) :
    pyReplaceDel pat (pat ++ v) = pyReplaceDel pat v := by
  obtain ⟨p, pat', rfl⟩ := List.exists_cons_of_ne_nil hne
  have happ : (p :: pat') ++ v = p :: (pat' ++ v) := rfl
  unfold pyReplaceDel
  rw [happ, show (p :: (pat' ++ v)).length = (pat' ++ v).length + 1 from rfl,
    pyReplaceDelFuel,
    if_pos ⟨hne, List.isPrefixOf_iff_prefix.2 (happ ▸ List.prefix_append (p :: pat') v)⟩,
    show (p :: (pat' ++ v)) = (p :: pat') ++ v from rfl, List.drop_left]
  exact pyReplaceDelFuel_fuel_inv _ _ v (by rw [List.length_append]; omega) le_rfl

theorem occursIn_false_drop {pat : List Char} :
    ∀ v, occursIn pat v = false → ∀ i, pat.isPrefixOf (v.drop i) = false := by
  intro v
  induction v with
  | nil =>
    intro h i
    simp only [List.drop_nil]
    simpa [occursIn] using h
  | cons c rest ih =>
    intro h i
    rw [occursIn, Bool.or_eq_false_iff] at h
    obtain ⟨h1, h2⟩ := h
    cases i with
    | zero => simpa using h1
    | succ n =>
      rw [List.drop_succ_cons]
      exact ih h2 n

theorem pyReplaceDel_no_occurrence {pat : List Char} :
    ∀ v, (∀ i, pat.isPrefixOf (v.drop i) = false) → pyReplaceDel pat v = v := by
  intro v
  induction v with
  | nil => intro _; exact pyReplaceDelFuel_nil pat _
  | cons c rest ih =>
    intro h
    unfold pyReplaceDel
    have hcond : ¬ (pat ≠ [] ∧ pat.isPrefixOf (c :: rest) = true) := by
      rintro ⟨hne2, hpre⟩
      have h0 := h 0
      rw [List.drop_zero] at h0
      rw [h0] at hpre
      exact Bool.noConfusion hpre
    rw [show (c :: rest).length = rest.length + 1 from rfl, pyReplaceDelFuel, if_neg hcond]
    show c :: pyReplaceDelFuel pat rest rest.length = c :: rest
    have hrest : pyReplaceDel pat rest = rest := by
      apply ih
      intro i
      have := h (i + 1)
      rwa [List.drop_succ_cons] at this
    rw [show pyReplaceDelFuel pat rest rest.length = pyReplaceDel pat rest from rfl, hrest]

/-! ## Final bridging lemmas -/

theorem chunksOf_empty {doc : PyDoc} {cs ov : Int}
    (h1 : 0 < cs) (h2 : 0 ≤ ov) (h3 : ov < cs)
    (hw : (pySplit doc.rawText).length = 0) : chunksOf doc cs ov = [] := by
  unfold chunksOf
  rw [makeChunks_valid_empty h1 h2 h3 hw]
  rfl

theorem chunksOf_eq {doc : PyDoc} {cs ov : Int}
    (h1 : 0 < cs) (h2 : 0 ≤ ov) (h3 : ov < cs)
    (hw : ¬ (pySplit doc.rawText).length = 0) :
    chunksOf doc cs ov = mapChunks doc (pySplit doc.rawText)
      ((tokenizeOff doc.rawText).map Prod.fst) 0
      (windowsFuel (tokenizeOff doc.rawText).length cs.toNat (cs - ov).toNat 0
        (tokenizeOff doc.rawText).length) := by
  unfold chunksOf
  rw [makeChunks_valid_pos h1 h2 h3 hw]
  simp only [Except.toOption, Option.getD]
  rw [wordStarts_main, pySplit_length]

theorem buildChunk_span (doc : PyDoc) (words : List (List Char)) (ws : List Nat)
    (cnt : Nat) (w : Nat × Nat) :
    (buildChunk doc words ws cnt w.1 w.2).span = spanOfWin words ws w := rfl

theorem adjustedEnd_window (text : List Char) (cs start : Nat)
    (hwin : start + cs < text.length) :
    adjustedEnd text cs start ≤ start + cs ∧
      (start + cs / 2 + 2 ≤ adjustedEnd text cs start ∨
        adjustedEnd text cs start = start + cs) := by
  have hmin : min (start + cs) text.length = start + cs := by omega
  simp only [adjustedEnd, hmin]
  rw [if_pos hwin]
  cases hrf : pyRfindChar '.' text start (start + cs) with
  | none => exact ⟨le_rfl, Or.inr rfl⟩
  | some p =>
    have hb := pyRfindChar_bounds _ p hrf
    dsimp only
    by_cases hhalf : start + cs / 2 < p
    · rw [if_pos hhalf]
      exact ⟨by omega, Or.inl (by omega)⟩
    · rw [if_neg hhalf]
      exact ⟨le_rfl, Or.inr rfl⟩

theorem adjustedEnd_tail (text : List Char) (cs start : Nat)
    (hwin : text.length ≤ start + cs) :
    adjustedEnd text cs start = text.length := by
  have hmin : min (start + cs) text.length = text.length := by omega
  simp only [adjustedEnd, hmin]
  rw [if_neg (by omega)]

theorem chain'_of_map_span {R : (Nat × Nat) → (Nat × Nat) → Prop} {l : List PyChunk}
    {l' : List (Nat × Nat)} (hmap : l.map PyChunk.span = l')
    (h : List.Chain' R l') : List.Chain' (fun c c' => R c.span c'.span) l := by
  subst hmap
  exact (List.chain'_map PyChunk.span).1 h

/-! ## Claim theorems -/

/-- Claim C3: every call of the chunker with `chunk_size ≤ 0`, or
`overlap < 0`, or `overlap ≥ chunk_size` fails with the configuration
`ValueError` before producing any chunk (the result carries no chunk list),
and never silently clamps the parameters. -/
theorem C3_invalid_config_rejected (doc : PyDoc) (cs ov : Int)
    (h : cs ≤ 0 ∨ ov < 0 ∨ cs ≤ ov) :
    (makeChunks doc cs ov).toOption = none := by
  unfold makeChunks
  rcases h with h | h | h
  · rw [if_pos (by omega)]; rfl
  · by_cases h0 : cs ≤ 0
    · rw [if_pos h0]; rfl
    · rw [if_neg h0, if_pos (by omega)]; rfl
  · by_cases h0 : cs ≤ 0
    · rw [if_pos h0]; rfl
    · by_cases hn : ov < 0
      · rw [if_neg h0, if_pos hn]; rfl
      · rw [if_neg h0, if_neg hn, if_pos (by omega)]; rfl

theorem C3_invalid_config_rejected_witness :
    (makeChunks (demoDoc demoRaw) 0 0).toOption = none :=
  C3_invalid_config_rejected (demoDoc demoRaw) 0 0 (Or.inl (by decide))

/-- Claim C5: when retrieval returns zero chunks, `generate_answer` returns
the fixed no-relevant-information message with an empty source list, and the
external completion service is invoked zero times. -/
theorem C5_empty_retrieval_guard {α : Type} (formatContext : List α → String)
    (createPromptTemplate : String → String → String)
    (complete : String → Except String Completion) (query modelName : String) :
    generateAnswer ([] : List α) formatContext createPromptTemplate complete query modelName
      = ({ answer := noInfoMsg, sources := [], query := query, modelUsed := modelName,
           tokensUsed := none }, 0) := rfl

/-- Claim C6: when retrieval returned chunks and the completion call fails,
`generate_answer` still returns a response carrying the retrieved chunks as
`sources` in their original order, with an error-describing answer, and the
failure is not re-raised. -/
theorem C6_completion_failure_degrades {α : Type} (retrievalResults : List α)
    (formatContext : List α → String) (createPromptTemplate : String → String → String)
    (complete : String → Except String Completion) (query modelName errMsg : String)
    (hne : retrievalResults ≠ [])
    (hfail : complete (createPromptTemplate query (formatContext retrievalResults))
      = .error errMsg) :
    (generateAnswer retrievalResults formatContext createPromptTemplate complete
        query modelName).1.sources = retrievalResults ∧
    (generateAnswer retrievalResults formatContext createPromptTemplate complete
        query modelName).1.answer = errPrefix ++ errMsg ∧
    (generateAnswer retrievalResults formatContext createPromptTemplate complete
        query modelName).2 = 1 := by
  unfold generateAnswer
  rw [if_neg (by rw [List.isEmpty_iff]; exact hne)]
  dsimp only
  rw [hfail]
  exact ⟨rfl, rfl, rfl⟩

theorem C6_completion_failure_degrades_witness :
    (generateAnswer ["first source"] (fun _ => "ctx") (fun q c => q ++ c)
        (fun _ => .error "boom") "what is discussed" "gpt-5-mini").1.sources
      = ["first source"] ∧
    (generateAnswer ["first source"] (fun _ => "ctx") (fun q c => q ++ c)
        (fun _ => .error "boom") "what is discussed" "gpt-5-mini").1.answer
      = errPrefix ++ "boom" ∧
    (generateAnswer ["first source"] (fun _ => "ctx") (fun q c => q ++ c)
        (fun _ => .error "boom") "what is discussed" "gpt-5-mini").2 = 1 :=
  C6_completion_failure_degrades ["first source"] (fun _ => "ctx") (fun q c => q ++ c)
    (fun _ => .error "boom") "what is discussed" "gpt-5-mini" "boom"
    (List.cons_ne_nil _ _) rfl

/-- Claim C8: in `chunk_document`, for a window that does not reach the end
of the text, if the last sentence terminator inside the window lies strictly
beyond half the nominal chunk size from the window start, the chunk ends
immediately after that terminator; otherwise (terminator too early, or no
terminator at all) the chunk ends at the full window end. -/
theorem C8_sentence_boundary (text : List Char) (cs start p : Nat)
    (hwin : start + cs < text.length) :
    ((start ≤ p → p < start + cs → text.getD p ' ' = '.' →
      (∀ q, p < q → q < start + cs → ¬ text.getD q ' ' = '.') →
      ((start + cs / 2 < p → adjustedEnd text cs start = p + 1) ∧
       (p ≤ start + cs / 2 → adjustedEnd text cs start = start + cs)))) ∧
    ((∀ q, start ≤ q → q < start + cs → ¬ text.getD q ' ' = '.') →
      adjustedEnd text cs start = start + cs) := by
  have hmin : min (start + cs) text.length = start + cs := by omega
  constructor
  · intro hp1 hp2 hp3 hp4
    constructor
    · intro hhalf
      simp only [adjustedEnd, hmin]
      rw [if_pos hwin, pyRfindChar_eq_some _ hp1 hp2 hp3 hp4]
      dsimp only
      rw [if_pos hhalf]
    · intro hhalf
      simp only [adjustedEnd, hmin]
      rw [if_pos hwin, pyRfindChar_eq_some _ hp1 hp2 hp3 hp4]
      dsimp only
      rw [if_neg (by omega)]
  · intro hq
    simp only [adjustedEnd, hmin]
    rw [if_pos hwin, pyRfindChar_eq_none _ hq]

theorem C8_sentence_boundary_witness :
    adjustedEnd ("aaaa.bb.cccc dddd".toList) 12 0 = 8 ∧
    adjustedEnd ("aaaabbbbcccc dddd".toList) 12 0 = 12 :=
  ⟨((C8_sentence_boundary ("aaaa.bb.cccc dddd".toList) 12 0 7 (by decide)).1
      (by decide) (by decide) (by decide)
      (by intro q h1 h2; interval_cases q <;> decide)).1 (by decide),
   (C8_sentence_boundary ("aaaabbbbcccc dddd".toList) 12 0 0 (by decide)).2
      (by intro q h1 h2; interval_cases q <;> decide)⟩

set_option maxRecDepth 8192 in
/-- Claim C9 counterexample: with the fixed overlap of 200 and
`chunk_size = 100` on a period-free text of length 101, the loop start does
not strictly increase: from `start = 0` the next start is `100 - 200 = -100`.
The claim fails for every `chunk_size` at most the overlap, so the loop need
not terminate. -/
theorem C9_counterexample :
    0 < (100 : Nat) ∧ (0 : Nat) < (List.replicate 101 'a').length ∧
      ¬ ((0 : Int) < nextStart (List.replicate 101 'a') 100 0) := by decide

/-- Claim C9 (amended): in `chunk_document`, the window start strictly
increases on every loop iteration (hence the loop terminates) provided
`chunk_size ≥ 398`, so that even an end pulled back to just past half the
nominal chunk size stays more than the fixed overlap of 200 beyond the
current start; for smaller `chunk_size` the start can decrease. -/
theorem C9_advance (text : List Char) (cs start : Nat)
    (hcs : 398 ≤ cs) (hstart : start < text.length) :
    (start : Int) < nextStart text cs start := by
  unfold nextStart
  rcases Nat.lt_or_ge (start + cs) text.length with hwin | hwin
  · obtain ⟨hle, hor⟩ := adjustedEnd_window text cs start hwin
    rw [if_pos (by omega)]
    simp only [pdfChunkOverlap]
    have hdiv : 199 ≤ cs / 2 := by omega
    rcases hor with h | h <;> omega
  · rw [adjustedEnd_tail text cs start hwin, if_neg (lt_irrefl _)]
    omega

set_option maxRecDepth 8192 in
theorem C9_advance_witness :
    ((0 : Nat) : Int) < nextStart (List.replicate 400 'a') 398 0 :=
  C9_advance (List.replicate 400 'a') 398 0 (by omega) (by decide)

/-- Claim C10 counterexample: for the video id "video_x", ingestion stores
collection "video_video_x", but the listing maps that name to "x" because
`name.replace("video_", "")` deletes every occurrence of the prefix string,
not only the leading one; the id does not round-trip. -/
theorem C10_counterexample :
    listAvailableVideos [collectionName ("video_x".toList)] = ["x".toList] ∧
      ("x".toList ≠ "video_x".toList) := by decide

/-- Claim C10 (amended): storing chunks for video id `v` uses the collection
name `"video_" ++ v`, and the listing maps each such name back to `v`
exactly when `v` itself contains no occurrence of the substring "video_"
(the listing deletes every occurrence, not only the leading prefix); under
that condition every ingested id appears unchanged in the list. -/
theorem C10_roundtrip (vs : List (List Char))
    (h : ∀ v ∈ vs, occursIn ("video_".toList) v = false) :
    listAvailableVideos (vs.map collectionName) = vs := by
  induction vs with
  | nil => rfl
  | cons v rest ih =>
    have hv := h v (List.mem_cons_self _ _)
    have hrest := ih (fun x hx => h x (List.mem_cons_of_mem _ hx))
    simp only [List.map_cons, listAvailableVideos]
    rw [show collectionName v = "video_".toList ++ v from rfl]
    rw [List.filter_cons_of_pos
      ( List.isPrefixOf_iff_prefix.2 ( List.prefix_append _ _)), List.map_cons]
    have hpat : ("video_".toList : List Char) ≠ [] := by decide
    rw [pyReplaceDel_prefix_step hpat,
      pyReplaceDel_no_occurrence v (occursIn_false_drop v hv)]
    simp only [listAvailableVideos] at hrest
    rw [hrest]

theorem C10_roundtrip_witness :
    listAvailableVideos ([("abc".toList : List Char), "xy9".toList].map collectionName)
      = [("abc".toList : List Char), "xy9".toList] :=
  C10_roundtrip [("abc".toList : List Char), "xy9".toList] (by decide)

/-- Claim C1: under the PositionMap invariant (entries sorted and
non-overlapping), every chunk produced by the spec-modelled
`chunk_transcript` whose `char_span.start` falls inside entry `i` is
assigned exactly `position_map[i].timestamp`, and a chunk matching no entry
is assigned the last PositionMap timestamp (the defined fallback). -/
theorem C1_timestamp_resolution (pm : List PMEntry) (doc : PyDoc) (cs ov : Int)
    (out : List (PyChunk × ℚ)) (c : PyChunk) (ts : ℚ)
    (hdisj : List.Pairwise (fun a b => a.charEnd ≤ b.charStart) pm)
    (hout : chunkTranscript pm doc cs ov = .ok out) (hmem : (c, ts) ∈ out) :
    (∀ i (hi : i < pm.length), entryContains (pm.get ⟨i, hi⟩) c.span.1 = true →
      ts = (pm.get ⟨i, hi⟩).timestamp) ∧
    ((∀ e ∈ pm, entryContains e c.span.1 = false) → ∀ hne : pm ≠ [],
      ts = (pm.getLast hne).timestamp) := by
  have hres : ts = resolveTimestamp pm c.span.1 := by
    unfold chunkTranscript at hout
    cases hmk : makeChunks doc cs ov with
    | error e =>
      rw [hmk] at hout
      exact Except.noConfusion hout
    | ok chunks =>
      rw [hmk] at hout
      simp only [Except.map] at hout
      have hmap : chunks.map (fun c => (c, resolveTimestamp pm c.span.1)) = out :=
        Except.ok.inj hout
      rw [← hmap] at hmem
      obtain ⟨c0, hc0, heq⟩ := List.mem_map.1 hmem
      have h1 : c0 = c := congrArg Prod.fst heq
      have h2 : resolveTimestamp pm c0.span.1 = ts := congrArg Prod.snd heq
      rw [← h2, h1]
  constructor
  · intro i hi hcont
    rw [hres]
    unfold resolveTimestamp
    cases hf : pm.find? (fun e => entryContains e c.span.1) with
    | none =>
      exfalso
      exact (List.find?_eq_none.1 hf (pm.get ⟨i, hi⟩) (List.get_mem _ _ hi)) hcont
    | some e0 =>
      have he0p := List.find?_some hf
      have he0m := List.mem_of_find?_eq_some hf
      obtain ⟨a, ha, hae⟩ := List.mem_iff_getElem.1 he0m
      have hgeta : (pm.get ⟨a, ha⟩) = e0 := by
        rw [List.get_eq_getElem]
        exact hae
      have hpw := List.pairwise_iff_get.1 hdisj
      have haei : a = i := by
        by_contra hne
        simp only [entryContains, Bool.and_eq_true, decide_eq_true_eq] at he0p hcont
        rcases Nat.lt_or_ge a i with hlt | hge
        · have hd := hpw ⟨a, ha⟩ ⟨i, hi⟩ hlt
          rw [hgeta] at hd
          omega
        · have hlt : i < a := by omega
          have hd := hpw ⟨i, hi⟩ ⟨a, ha⟩ hlt
          rw [hgeta] at hd
          omega
      subst haei
      rw [← hgeta]
  · intro hall hne
    rw [hres]
    unfold resolveTimestamp
    have hf : pm.find? (fun e => entryContains e c.span.1) = none := by
      rw [List.find?_eq_none]
      intro x hx
      rw [hall x hx]
      exact Bool.noConfusion
    rw [hf, List.getLast?_eq_getLast pm hne]

theorem C1_timestamp_resolution_witness :
    (0 : ℚ) = (demoPM.get ⟨0, by decide⟩).timestamp :=
  (C1_timestamp_resolution demoPM (demoDoc demoRaw) 3 1 demoOut demoChunk1 0
    (by decide) rfl (by decide)).1 0 (by decide) (by decide)

/-- Claim C7: on stored chunk sets respecting the data model (timestamps are
non-negative seconds), `get_context_window` returns exactly the chunks whose
timestamp lies in the closed interval from `t - w` to `t + w` (a permutation
of that filter — all of them, no others) sorted by timestamp ascending. -/
theorem C7_context_window (chunks : List StoredChunk) (t w : ℚ)
    (h0 : ∀ c ∈ chunks, 0 ≤ c.timestamp) :
    (getContextWindow chunks t w).Perm
      (chunks.filter (fun c => decide (t - w ≤ c.timestamp) && decide (c.timestamp ≤ t + w))) ∧
    List.Sorted (fun a b : StoredChunk => a.timestamp ≤ b.timestamp)
      (getContextWindow chunks t w) := by
  have hfeq : chunks.filter
      (fun c => decide (max 0 (t - w) ≤ c.timestamp) && decide (c.timestamp ≤ t + w))
      = chunks.filter
      (fun c => decide (t - w ≤ c.timestamp) && decide (c.timestamp ≤ t + w)) := by
    apply List.filter_congr
    intro x hx
    have hx0 := h0 x hx
    have : (max 0 (t - w) ≤ x.timestamp) ↔ (t - w ≤ x.timestamp) := by
      rw [max_le_iff]
      exact ⟨fun h => h.2, fun h => ⟨hx0, h⟩⟩
    rw [decide_eq_decide.2 this]
  constructor
  · unfold getContextWindow
    refine (List.mergeSort_perm _ _).trans ?_
    rw [hfeq]
  · unfold getContextWindow
    have hs := @List.sorted_mergeSort StoredChunk
      (fun a b => decide (a.timestamp ≤ b.timestamp))
      (by intro a b c hab hbc
          simp only [decide_eq_true_eq] at hab hbc ⊢
          exact le_trans hab hbc)
      (by intro a b
          rcases le_total a.timestamp b.timestamp with h | h <;> simp [h])
      (chunks.filter
        (fun c => decide (max 0 (t - w) ≤ c.timestamp) && decide (c.timestamp ≤ t + w)))
    exact hs.imp (fun {a b} hab => by simpa using hab)

theorem C7_context_window_witness :
    (getContextWindow demoStored 30 15).Perm
      (demoStored.filter (fun c => decide ((30 : ℚ) - 15 ≤ c.timestamp) &&
        decide (c.timestamp ≤ (30 : ℚ) + 15))) ∧
    List.Sorted (fun a b : StoredChunk => a.timestamp ≤ b.timestamp)
      (getContextWindow demoStored 30 15) :=
  C7_context_window demoStored 30 15 (by decide)

/-- Claim C2 counterexample: on the buffer "ab cd" with `chunk_size 1,
overlap 0` the chunker emits spans `[0, 2)` and `[3, 5)`; the separator
character at offset `2 < 5` lies in no span, so the union of the spans does
not cover the whole buffer. -/
theorem C2_counterexample :
    (makeChunks (demoDoc ("ab cd".toList)) 1 0).toOption = some [demoChunkA, demoChunkB] ∧
    (2 : Nat) < ("ab cd".toList).length ∧
    ¬ (demoChunkA.span.1 ≤ 2 ∧ 2 < demoChunkA.span.2) ∧
    ¬ (demoChunkB.span.1 ≤ 2 ∧ 2 < demoChunkB.span.2) := by decide

/-- Claim C2 (amended): for every document and every valid
`(chunk_size, overlap)` the chunker succeeds, its chunks are ordered by
`char_span.start` ascending, consecutive chunks share at most `overlap`
tokens, and the union of the char spans covers every non-whitespace
character of the buffer (the whitespace separators between tokens, and any
leading or trailing whitespace, are the only characters outside all spans). -/
theorem C2_chunk_sequence (doc : PyDoc) (cs ov : Int)
    (h1 : 0 < cs) (h2 : 0 ≤ ov) (h3 : ov < cs) :
    makeChunks doc cs ov = .ok (chunksOf doc cs ov) ∧
    List.Chain' (fun c c' : PyChunk => c.span.1 < c'.span.1) (chunksOf doc cs ov) ∧
    List.Chain' (fun c c' : PyChunk =>
      sharedTokens doc.rawText c.span c'.span ≤ ov.toNat) (chunksOf doc cs ov) ∧
    (∀ p, p < doc.rawText.length → pyIsSpace (doc.rawText.getD p ' ') = false →
      ∃ c ∈ chunksOf doc cs ov, c.span.1 ≤ p ∧ p < c.span.2) := by
  by_cases hw : (pySplit doc.rawText).length = 0
  · have he := chunksOf_empty h1 h2 h3 hw
    refine ⟨?_, ?_, ?_, ?_⟩
    · rw [he]; exact makeChunks_valid_empty h1 h2 h3 hw
    · rw [he]; exact List.chain'_nil
    · rw [he]; exact List.chain'_nil
    · intro p hp hns
      exfalso
      obtain ⟨t, ht, _, _⟩ := tokenize_cover0 hp hns
      have hz : (tokenizeOff doc.rawText).length = 0 := by
        rw [← pySplit_length]; exact hw
      rw [List.length_eq_zero] at hz
      rw [hz] at ht
      simp at ht
  · have hck := chunksOf_eq h1 h2 h3 hw
    have hw0 : 0 < cs.toNat := by omega
    have hs0 : 0 < (cs - ov).toNat := by omega
    have hsw : (cs - ov).toNat ≤ cs.toNat := by omega
    have hmap := mapChunks_map_span doc (pySplit doc.rawText)
      ((tokenizeOff doc.rawText).map Prod.fst) 0
      (windowsFuel (tokenizeOff doc.rawText).length cs.toNat (cs - ov).toNat 0
        (tokenizeOff doc.rawText).length)
    refine ⟨?_, ?_, ?_, ?_⟩
    · rw [hck, makeChunks_valid_pos h1 h2 h3 hw, wordStarts_main, pySplit_length]
    · rw [hck]
      exact chain'_of_map_span hmap
        (@span_chain_lt doc.rawText cs.toNat ((cs - ov).toNat) hw0 hs0)
    · rw [hck]
      have h' := chain'_of_map_span hmap
        (@span_chain_overlap doc.rawText cs.toNat ((cs - ov).toNat) hw0 hs0 hsw)
      refine h'.imp ?_
      intro a b hab
      omega
    · intro p hp hns
      obtain ⟨s, hsmem, hs1, hs2⟩ :=
        @span_cover_char doc.rawText cs.toNat ((cs - ov).toNat) hw0 hs0 hsw p hp hns
      obtain ⟨wn, hwmem, hws⟩ := List.mem_map.1 hsmem
      obtain ⟨c, hcmem, hcs⟩ := mapChunks_mem_span doc (pySplit doc.rawText)
        ((tokenizeOff doc.rawText).map Prod.fst) 0 _ wn hwmem
      refine ⟨c, by rw [hck]; exact hcmem, ?_, ?_⟩
      · rw [hcs, hws]; exact hs1
      · rw [hcs, hws]; exact hs2

theorem C2_chunk_sequence_witness :
    makeChunks (demoDoc demoRaw) 3 1 = .ok (chunksOf (demoDoc demoRaw) 3 1) ∧
    List.Chain' (fun c c' : PyChunk => c.span.1 < c'.span.1)
      (chunksOf (demoDoc demoRaw) 3 1) ∧
    List.Chain' (fun c c' : PyChunk =>
      sharedTokens (demoDoc demoRaw).rawText c.span c'.span ≤ (1 : Int).toNat)
      (chunksOf (demoDoc demoRaw) 3 1) := by
  have h := C2_chunk_sequence (demoDoc demoRaw) 3 1 (by decide) (by decide) (by decide)
  exact ⟨h.1, h.2.1, h.2.2.1⟩

/-- Claim C4 counterexample: the buffer " a" has one token (at most the
chunk size 2), and the chunker emits exactly one chunk, but its char span is
`(1, 2)`, not the whole buffer `(0, 2)`: leading whitespace is excluded. -/
theorem C4_counterexample :
    (makeChunks (demoDoc (" a".toList)) 2 0).toOption = some [demoChunkPad] ∧
    (tokenizeOff (" a".toList)).length = 1 ∧
    (" a".toList).length = 2 ∧
    demoChunkPad.span = (1, 2) ∧
    ¬ demoChunkPad.span = (0, 2) := by decide

/-- Claim C4 (amended): for every valid `(chunk_size, overlap)`, a buffer
with zero whitespace-delimited tokens yields the empty chunk sequence
without an error, and every buffer with at least one token whose token count
is at most `chunk_size` yields exactly one chunk whose char span runs from
the start of the first token to the end of the last token -- which is the
whole buffer `[0, len)` exactly when the buffer neither starts nor ends with
whitespace. -/
theorem C4_small_buffer (doc : PyDoc) (cs ov : Int)
    (h1 : 0 < cs) (h2 : 0 ≤ ov) (h3 : ov < cs) :
    (pySplit doc.rawText = [] → makeChunks doc cs ov = .ok []) ∧
    (∀ hne : tokenizeOff doc.rawText ≠ [],
      (tokenizeOff doc.rawText).length ≤ cs.toNat →
      makeChunks doc cs ov = .ok [buildChunk doc (pySplit doc.rawText)
          ((tokenizeOff doc.rawText).map Prod.fst) 1 0 (tokenizeOff doc.rawText).length] ∧
      (buildChunk doc (pySplit doc.rawText) ((tokenizeOff doc.rawText).map Prod.fst) 1 0
          (tokenizeOff doc.rawText).length).span
        = (((tokenizeOff doc.rawText).get ⟨0, List.length_pos.2 hne⟩).1,
           ((tokenizeOff doc.rawText).getLast hne).1 +
             ((tokenizeOff doc.rawText).getLast hne).2.length) ∧
      (pyIsSpace (doc.rawText.getD 0 ' ') = false →
        pyIsSpace (doc.rawText.getD (doc.rawText.length - 1) ' ') = false →
        (buildChunk doc (pySplit doc.rawText) ((tokenizeOff doc.rawText).map Prod.fst) 1 0
          (tokenizeOff doc.rawText).length).span = (0, doc.rawText.length))) := by
  constructor
  · intro hpe
    apply makeChunks_valid_empty h1 h2 h3
    rw [hpe]
    rfl
  · intro hne hlen
    have hnpos : 0 < (tokenizeOff doc.rawText).length := List.length_pos.2 hne
    have hwne : ¬ (pySplit doc.rawText).length = 0 := by rw [pySplit_length]; omega
    have hwin : windowsFuel (tokenizeOff doc.rawText).length cs.toNat (cs - ov).toNat 0
        (tokenizeOff doc.rawText).length = [(0, (tokenizeOff doc.rawText).length)] :=
      windows_single hnpos hlen hnpos
    have hmk : makeChunks doc cs ov = .ok [buildChunk doc (pySplit doc.rawText)
        ((tokenizeOff doc.rawText).map Prod.fst) 1 0 (tokenizeOff doc.rawText).length] := by
      rw [makeChunks_valid_pos h1 h2 h3 hwne, wordStarts_main, pySplit_length, hwin]
      rfl
    have hlast : (tokenizeOff doc.rawText).getLast hne
        = (tokenizeOff doc.rawText).get ⟨(tokenizeOff doc.rawText).length - 1, by omega⟩ := by
      rw [List.getLast_eq_getElem, List.get_eq_getElem]
    have hspan : (buildChunk doc (pySplit doc.rawText)
        ((tokenizeOff doc.rawText).map Prod.fst) 1 0 (tokenizeOff doc.rawText).length).span
        = (((tokenizeOff doc.rawText).get ⟨0, hnpos⟩).1,
           ((tokenizeOff doc.rawText).get
             ⟨(tokenizeOff doc.rawText).length - 1, by omega⟩).1 +
            ((tokenizeOff doc.rawText).get
             ⟨(tokenizeOff doc.rawText).length - 1, by omega⟩).2.length) := by
      rw [show (buildChunk doc (pySplit doc.rawText)
          ((tokenizeOff doc.rawText).map Prod.fst) 1 0
          (tokenizeOff doc.rawText).length).span
        = spanOfWin (pySplit doc.rawText) ((tokenizeOff doc.rawText).map Prod.fst)
          (0, (tokenizeOff doc.rawText).length) from rfl]
      exact spanOfWin_eq hnpos hnpos le_rfl
    refine ⟨hmk, ?_, ?_⟩
    · rw [hspan, hlast]
    · intro hh hl
      rw [hspan]
      have hhead := tokenize_head_offset hne hh
      have hend := tokenize_last_end hne hl
      rw [hlast] at hend
      rw [hhead, hend]

theorem C4_small_buffer_witness :
    makeChunks (demoDoc demoRaw) 10 0 = .ok [buildChunk (demoDoc demoRaw) (pySplit demoRaw)
      ((tokenizeOff demoRaw).map Prod.fst) 1 0 (tokenizeOff demoRaw).length] ∧
    (buildChunk (demoDoc demoRaw) (pySplit demoRaw) ((tokenizeOff demoRaw).map Prod.fst) 1 0
      (tokenizeOff demoRaw).length).span = (0, (demoDoc demoRaw).rawText.length) := by
  have h := (C4_small_buffer (demoDoc demoRaw) 10 0 (by decide) (by decide) (by decide)).2
    (by decide) (by decide)
  exact ⟨h.1, h.2.2 (by decide) (by decide)⟩

end RagSpec
